import Mathlib

/-!
Shallow embedding of the rate-limiting subsystem of `azizndao/glib`
(`ratelimit/ratelimit.go`, `ratelimit/redis.go`).

Conventions of the embedding:
* Go `time.Time` and `time.Duration` are modelled as `Int` nanoseconds
  (Go durations are `int64` nanosecond counts).
* Go `int` counters are modelled as `Int`.
* The Go map `map[string]*memoryEntry` is modelled as an association list
  with first-match lookup; insertion replaces the first matching binding.
* Fallible operations return an `Option String` error component
  (`none` = Go `nil` error) or `Except String`.
* `time.Now()` is passed in explicitly as the `now` argument, so each store
  operation is a pure function of the pre-state and the call instant.
-/

set_option autoImplicit false

/-- A `memoryEntry` of `MemoryStore`: request count and window start time
for one key (`ratelimit.go`, type `memoryEntry`). -/
structure MemoryEntry where
  count : Int
  windowStart : Int
  deriving Repr, DecidableEq

/-- The entry map of a `MemoryStore` (`entries map[string]*memoryEntry`),
modelled as an association list with first-match lookup. -/
abbrev MemoryStore := List (String × MemoryEntry)

/-- Go map read `m.entries[key]`: first binding whose key matches. -/
def getEntry : MemoryStore → String → Option MemoryEntry
  | [], _ => none
  | (k, v) :: rest, key => if k = key then some v else getEntry rest key

/-- Go map write `m.entries[key] = entry`: replace the first matching
binding, or append a new one. -/
def setEntry : MemoryStore → String → MemoryEntry → MemoryStore
  | [], key, v => [(key, v)]
  | (k, v0) :: rest, key, v =>
      if k = key then (key, v) :: rest else (k, v0) :: setEntry rest key v

/-- Go map delete `delete(m.entries, key)`. -/
def delEntry : MemoryStore → String → MemoryStore
  | [], _ => []
  | (k, v0) :: rest, key =>
      if k = key then delEntry rest key else (k, v0) :: delEntry rest key

/-- MemoryStore.Increment (`ratelimit.go`): returns the updated store, the
post-increment count, the ttl and the error (always `nil`).
Missing key: create `{count := 1, windowStart := now}`, return `(1, window)`.
Existing key with `now - windowStart > window`: reset to
`{1, now}`, return `(1, window)`. Otherwise increment the count and return
`(count, window - elapsed)`. -/
def memIncrement (m : MemoryStore) (now : Int) (key : String) (window : Int) :
    MemoryStore × Int × Int × Option String :=
  match getEntry m key with
  | none => (setEntry m key ⟨1, now⟩, 1, window, none)
  | some e =>
      let elapsed := now - e.windowStart
      if elapsed > window then
        (setEntry m key ⟨1, now⟩, 1, window, none)
      else
        (setEntry m key ⟨e.count + 1, e.windowStart⟩, e.count + 1, window - elapsed, none)

/-- MemoryStore.Decrement (`ratelimit.go`): missing key is a silent no-op;
an existing entry has its count lowered by one only when it is `> 0`.
Returns the updated store and the error (always `nil`). -/
def memDecrement (m : MemoryStore) (key : String) : MemoryStore × Option String :=
  match getEntry m key with
  | none => (m, none)
  | some e =>
      if e.count > 0 then
        (setEntry m key ⟨e.count - 1, e.windowStart⟩, none)
      else
        (m, none)

/-- MemoryStore.Get (`ratelimit.go`): `(0, 0, nil)` for a missing key,
`(count, 0, nil)` for an existing entry — the source returns a zero ttl
for existing entries. -/
def memGet (m : MemoryStore) (key : String) : Int × Int × Option String :=
  match getEntry m key with
  | none => (0, 0, none)
  | some e => (e.count, 0, none)

/-- MemoryStore.Reset (`ratelimit.go`): delete the key, return `nil`. -/
def memReset (m : MemoryStore) (key : String) : MemoryStore × Option String :=
  (delEntry m key, none)

theorem getEntry_setEntry_self (m : MemoryStore) (key : String) (v : MemoryEntry) :
    getEntry (setEntry m key v) key = some v := by
  induction m with
  | nil => simp [setEntry, getEntry]
  | cons p rest ih =>
      obtain ⟨k, v0⟩ := p
      by_cases h : k = key
      · simp [setEntry, getEntry, h]
      · simp [setEntry, getEntry, h, ih]

theorem getEntry_delEntry_self (m : MemoryStore) (key : String) :
    getEntry (delEntry m key) key = none := by
  induction m with
  | nil => simp [delEntry, getEntry]
  | cons p rest ih =>
      obtain ⟨k, v0⟩ := p
      by_cases h : k = key
      · simp [delEntry, h, ih]
      · simp [delEntry, getEntry, h, ih]

/-- A Redis hash entry written by the increment script: the `count` and
`window_start` fields stored under one rate-limit key (`redis.go`). -/
structure RedisEntry where
  count : Int
  windowStart : Int
  deriving Repr, DecidableEq

/-- The `incrementScript` Lua script of `redis.go`, as a pure function of
the key's hash state. A missing key reads as `count = 0`,
`window_start = now` (the `tonumber(...) or` defaults). Expired window
(`now - window_start > window`): reset to `(1, now)`; otherwise increment.
The updated pair is written back and `{count, window - (now - window_start)}`
is returned (state after update, so the ttl uses the updated start). -/
def redisIncrementScript (st : Option RedisEntry) (window now : Int) :
    Option RedisEntry × Int × Int :=
  let count0 := (st.map RedisEntry.count).getD 0
  let windowStart0 := (st.map RedisEntry.windowStart).getD now
  let next :=
    if now - windowStart0 > window then
      RedisEntry.mk 1 now
    else
      RedisEntry.mk (count0 + 1) windowStart0
  (some next, next.count, window - (now - next.windowStart))

/-- The `decrementScript` Lua script of `redis.go`, as a pure function of
the key's hash state: a missing key reads as count 0 and nothing is
written (no entry is created); a positive count is lowered by one and
written back (`window_start` untouched); a non-positive count is left
alone. Returns the (possibly updated) state and the count the script
returns. -/
def redisDecrementScript (st : Option RedisEntry) : Option RedisEntry × Int :=
  match st with
  | none => (none, 0)
  | some e =>
      if e.count > 0 then
        (some ⟨e.count - 1, e.windowStart⟩, e.count - 1)
      else
        (some e, e.count)

/-- Result of looking up one decimal digit (Go rune to value). -/
def digitVal (c : Char) : Option Nat :=
  if c.isDigit then some (c.toNat - Char.toNat (Char.ofNat 48)) else none

/-- Accumulate decimal digits left to right; `none` on a non-digit. -/
def parseDigitsAux : Nat → List Char → Option Nat
  | acc, [] => some acc
  | acc, c :: rest =>
      match digitVal c with
      | none => none
      | some d => parseDigitsAux (acc * 10 + d) rest

/-- Parse a non-empty all-digit string to its value; `none` otherwise. -/
def parseDigits : List Char → Option Nat
  | [] => none
  | l => parseDigitsAux 0 l

/-- Go `strconv.ParseInt(s, 10, 64)`: optional sign, then decimal digits;
syntax error for an empty string, bare sign or stray character; range
error when the value leaves `[-2^63, 2^63 - 1]`. (Go also returns a
clamped value alongside the range error; `toInt` discards it, so the
model keeps only the error.) -/
def goParseInt64 (s : String) : Except String Int :=
  match s.data with
  | [] => Except.error "invalid syntax"
  | c :: rest =>
      let signed : Bool × List Char :=
        if c = Char.ofNat 45 then (true, rest)
        else if c = Char.ofNat 43 then (false, rest)
        else (false, c :: rest)
      match parseDigits signed.2 with
      | none => Except.error "invalid syntax"
      | some n =>
          let v : Int := if signed.1 then -(n : Int) else (n : Int)
          if v < -(2 ^ 63) ∨ v > 2 ^ 63 - 1 then
            Except.error "value out of range"
          else
            Except.ok v

/-- The largest value of Go `int` on a platform whose `int` is `w` bits
(`math.MaxInt`). -/
def maxIntW (w : Nat) : Int := 2 ^ (w - 1) - 1

/-- The smallest value of Go `int` on a platform whose `int` is `w` bits
(`math.MinInt`). -/
def minIntW (w : Nat) : Int := -(2 ^ (w - 1))

/-- The dynamic value Redis hands back to `toInt` (`interface` in Go):
a platform `int`, an `int64`, a string, or some other type. -/
inductive GoVal where
  | vint (n : Int)
  | vint64 (n : Int)
  | vstr (s : String)
  | vother (typeName : String)
  deriving Repr, DecidableEq

/-- The range-checked `toInt` of `redis.go` (glib variant), parameterised
by the platform int width `w`: an `int` passes through; an `int64` or a
parsed decimal string is returned exactly when inside
`[math.MinInt, math.MaxInt]` and reported as an overflow error otherwise;
any other dynamic type is an error. -/
def toInt (w : Nat) : GoVal → Except String Int
  | GoVal.vint n => Except.ok n
  | GoVal.vint64 n =>
      if n > maxIntW w ∨ n < minIntW w then
        Except.error "value overflows int on this platform"
      else
        Except.ok n
  | GoVal.vstr s =>
      match goParseInt64 s with
      | Except.error e => Except.error e
      | Except.ok i =>
          if i > maxIntW w ∨ i < minIntW w then
            Except.error "value overflows int on this platform"
          else
            Except.ok i
  | GoVal.vother t => Except.error ("cannot convert " ++ t ++ " to int")

/-- RedisStore.Get (`redis.go`): the raw client `Get` outcome is passed in
as `none` when the client returned an error (the source treats every
client error as a missing key) and `some s` for a stored string value.
A missing key yields `(0, 0, nil)`; a stored value is parsed with
`strconv.Atoi` (= ParseInt at the platform width), a parse failure is a
reported error. -/
def redisGet (w : Nat) (val : Option String) : Int × Int × Option String :=
  match val with
  | none => (0, 0, none)
  | some s =>
      match goParseInt64 s with
      | Except.error e => (0, 0, some ("failed to parse count: " ++ e))
      | Except.ok i =>
          if i > maxIntW w ∨ i < minIntW w then
            (0, 0, some "failed to parse count: value out of range")
          else
            (i, 0, none)

/-- The part of the middleware `Config` the admission flow reads
(`ratelimit.go`, type `Config`; key generation, the store and the
handler bodies are abstracted by the middleware model's inputs). -/
structure Config where
  max : Int
  skipFailedRequests : Bool
  skipSuccessfulRequests : Bool
  headerPfx : String
  deriving Repr, DecidableEq

/-- One store call outcome `(count, ttl, err)` as the middleware sees it;
`ttl` in nanoseconds, `err = none` for Go `nil`. -/
structure StoreResp where
  count : Int
  ttl : Int
  err : Option String
  deriving Repr, DecidableEq

/-- What the downstream handler does to the (wrapped) response writer:
`writeHeader code` is `WriteHeader(code)`, `write n` is `Write` of an
`n`-byte body. -/
inductive WriterEvent where
  | writeHeader (code : Int)
  | write (n : Nat)
  deriving Repr, DecidableEq

/-- The `statusWriter` tracking of `ratelimit.go`: `WriteHeader` records
the code; `Write` records 200 when no code has been recorded yet. -/
def swFinalStatus : Int → List WriterEvent → Int
  | st, [] => st
  | _, WriterEvent.writeHeader c :: rest => swFinalStatus c rest
  | st, WriterEvent.write _ :: rest =>
      swFinalStatus (if st = 0 then 200 else st) rest

/-- The status the reconciliation step of `RateLimit` acts on: the
`statusWriter` code, with 0 (nothing recorded) treated as 200. -/
def effStatus (events : List WriterEvent) : Int :=
  let st := swFinalStatus 0 events
  if st = 0 then 200 else st

/-- Where the middleware's returned value comes from: the downstream
handler chain or the admission-failure handler. (The middleware never
returns a store error.) -/
inductive MWReturn where
  | fromNext
  | fromHandler
  deriving Repr, DecidableEq

/-- Everything observable about one execution of the `RateLimit`
middleware body: the response headers it set, whether the
admission-failure handler ran, whether the downstream `next` handler ran,
whether `Increment` was called and succeeded (the request was charged),
how many `Decrement` calls it made, and whose result it returned. -/
structure MWOutcome where
  headers : List (String × String)
  handlerInvoked : Bool
  nextInvoked : Bool
  charged : Bool
  decrements : Nat
  ret : MWReturn
  deriving Repr, DecidableEq

/-- Go `t.Unix()` for a time of `t` nanoseconds since the epoch: floor
division to seconds. -/
def goUnix (t : Int) : Int := Int.fdiv t 1000000000

/-- Go `int(d.Seconds())` for a duration of `d` nanoseconds: `Seconds`
divides as float64 and `int` truncates toward zero, modelled as exact
truncating division. -/
def durSecondsTrunc (d : Int) : Int := Int.tdiv d 1000000000

/-- The headers the middleware sets on denial (`ratelimit.go`):
`{prefix}Limit`, `{prefix}Remaining = "0"`, `{prefix}Reset` (epoch of
`now + ttl`) and `Retry-After` (ttl in whole seconds). -/
def denialHeaders (cfg : Config) (now ttl : Int) : List (String × String) :=
  [ (cfg.headerPfx ++ "Limit", toString cfg.max),
    (cfg.headerPfx ++ "Remaining", "0"),
    (cfg.headerPfx ++ "Reset", toString (goUnix (now + ttl))),
    ("Retry-After", toString (durSecondsTrunc ttl)) ]

/-- The headers the middleware sets on admission (`ratelimit.go`):
`{prefix}Limit`, `{prefix}Remaining` and `{prefix}Reset`. -/
def grantHeaders (cfg : Config) (now ttl remaining : Int) : List (String × String) :=
  [ (cfg.headerPfx ++ "Limit", toString cfg.max),
    (cfg.headerPfx ++ "Remaining", toString remaining),
    (cfg.headerPfx ++ "Reset", toString (goUnix (now + ttl))) ]

/-- The admission flow of `RateLimit` once the initial `Get` error check
has passed (`ratelimit.go`, glib variant): deny when
`count >= cfg.Max`; otherwise `Increment` (fail open on error), set the
grant headers, run `next`, and — when a skip flag is set — decrement once
if the observed final status matches the configured condition. -/
def admissionFlow (cfg : Config) (now : Int) (getRes incRes : StoreResp)
    (events : List WriterEvent) : MWOutcome :=
  if getRes.count ≥ cfg.max then
    { headers := denialHeaders cfg now getRes.ttl, handlerInvoked := true,
      nextInvoked := false, charged := false, decrements := 0,
      ret := MWReturn.fromHandler }
  else
    match incRes.err with
    | some _ =>
        { headers := [], handlerInvoked := false, nextInvoked := true,
          charged := false, decrements := 0, ret := MWReturn.fromNext }
    | none =>
        let remaining := max (cfg.max - incRes.count) 0
        let dec : Nat :=
          if cfg.skipFailedRequests || cfg.skipSuccessfulRequests then
            let status := effStatus events
            if (cfg.skipFailedRequests = true ∧ status ≥ 400) ∨
               (cfg.skipSuccessfulRequests = true ∧ 200 ≤ status ∧ status < 400) then
              1
            else 0
          else 0
        { headers := grantHeaders cfg now incRes.ttl remaining,
          handlerInvoked := false, nextInvoked := true, charged := true,
          decrements := dec, ret := MWReturn.fromNext }

/-- The body of the `RateLimit` middleware (`ratelimit.go`, glib variant)
for one request, as a function of the two store call outcomes and the
downstream handler's writer events. A `Get` error whose message is not
`"key not found"` fails open (run `next` unmetered); otherwise the
admission flow runs on the `Get` result. -/
def rateLimitHandle (cfg : Config) (now : Int) (getRes incRes : StoreResp)
    (events : List WriterEvent) : MWOutcome :=
  match getRes.err with
  | some msg =>
      if msg ≠ "key not found" then
        { headers := [], handlerInvoked := false, nextInvoked := true,
          charged := false, decrements := 0, ret := MWReturn.fromNext }
      else
        admissionFlow cfg now getRes incRes events
  | none => admissionFlow cfg now getRes incRes events

/-- Run `MemoryStore.Increment` once per element of `ts` (the call
instants, in order) on the same key, collecting the returned counts. -/
def runIncrements (m : MemoryStore) (key : String) (window : Int) :
    List Int → MemoryStore × List Int
  | [] => (m, [])
  | t :: ts =>
      let r := memIncrement m t key window
      let rest := runIncrements r.1 key window ts
      (rest.1, r.2.1 :: rest.2)

/-- The counts `c+1, c+2, ..., c+n` that `n` further increments report
after the stored count is `c`. -/
def countsFrom (c : Int) : Nat → List Int
  | 0 => []
  | n + 1 => (c + 1) :: countsFrom (c + 1) n

theorem countsFrom_length : ∀ (n : Nat) (c : Int), (countsFrom c n).length = n := by
  intro n
  induction n with
  | zero => intro c; rfl
  | succ k ih => intro c; simp [countsFrom, ih]

theorem countsFrom_getElem :
    ∀ (n : Nat) (c : Int) (i : Nat), i < n → (countsFrom c n)[i]? = some (c + i + 1) := by
  intro n
  induction n with
  | zero => intro c i h; omega
  | succ k ih =>
      intro c i h
      cases i with
      | zero => simp [countsFrom]
      | succ j =>
          have hj : j < k := by omega
          simp only [countsFrom, List.getElem?_cons_succ, ih (c + 1) j hj]
          congr 1
          push_cast
          ring

theorem runIncrements_spec :
    ∀ (ts : List Int) (m : MemoryStore) (key : String) (window : Int) (c t0 : Int),
      getEntry m key = some ⟨c, t0⟩ → (∀ t ∈ ts, t - t0 ≤ window) →
      (runIncrements m key window ts).2 = countsFrom c ts.length ∧
      getEntry (runIncrements m key window ts).1 key = some ⟨c + ts.length, t0⟩ := by
  intro ts
  induction ts with
  | nil =>
      intro m key window c t0 hm _
      simp [runIncrements, countsFrom, hm]
  | cons t rest ih =>
      intro m key window c t0 hm hts
      have hle : t - t0 ≤ window := hts t (List.mem_cons_self t rest)
      have hstep : memIncrement m t key window =
          (setEntry m key ⟨c + 1, t0⟩, c + 1, window - (t - t0), none) := by
        simp [memIncrement, hm]
        omega
      have hnext : getEntry (setEntry m key ⟨c + 1, t0⟩) key = some ⟨c + 1, t0⟩ :=
        getEntry_setEntry_self m key ⟨c + 1, t0⟩
      have hrest : ∀ u ∈ rest, u - t0 ≤ window := fun u hu =>
        hts u (List.mem_cons_of_mem t hu)
      obtain ⟨h1, h2⟩ := ih (setEntry m key ⟨c + 1, t0⟩) key window (c + 1) t0 hnext hrest
      constructor
      · simp [runIncrements, hstep, h1, countsFrom]
      · simp only [runIncrements, hstep]
        rw [h2]
        congr 2
        simp only [List.length_cons]
        push_cast
        ring

/-- C1. On a fresh `MemoryStore`, sequential `Increment` calls at instants
`t1, ts...` that all stay within one window of the first call
(`t - t1 ≤ window`, so no expiry happens between calls) report the
post-increment counts `1, 2, ..., N`, and the final stored count read
back by `Get` is exactly `N = ts.length + 1`. -/
theorem mem_increment_sequential_counts (key : String) (window t1 : Int)
    (ts : List Int) (hts : ∀ t ∈ ts, t - t1 ≤ window) :
    (runIncrements [] key window (t1 :: ts)).2.length = ts.length + 1 ∧
    (∀ i, i < ts.length + 1 →
      ((runIncrements [] key window (t1 :: ts)).2)[i]? = some ((i : Int) + 1)) ∧
    memGet (runIncrements [] key window (t1 :: ts)).1 key =
      ((ts.length : Int) + 1, 0, none) := by
  have hfirst : memIncrement ([] : MemoryStore) t1 key window =
      ([(key, ⟨1, t1⟩)], 1, window, none) := by
    simp [memIncrement, getEntry, setEntry]
  have hm : getEntry [(key, (⟨1, t1⟩ : MemoryEntry))] key = some ⟨1, t1⟩ := by
    simp [getEntry]
  obtain ⟨h1, h2⟩ := runIncrements_spec ts [(key, ⟨1, t1⟩)] key window 1 t1 hm hts
  have hrun : (runIncrements [] key window (t1 :: ts)).2 =
      countsFrom 0 (ts.length + 1) := by
    simp [runIncrements, hfirst, h1, countsFrom]
  have hrun1 : (runIncrements [] key window (t1 :: ts)).1 =
      (runIncrements [(key, ⟨1, t1⟩)] key window ts).1 := by
    simp [runIncrements, hfirst]
  refine ⟨?_, ?_, ?_⟩
  · rw [hrun, countsFrom_length]
  · intro i hi
    rw [hrun, countsFrom_getElem (ts.length + 1) 0 i hi]
    norm_num
  · rw [hrun1]
    simp [memGet, h2]
    ring

/-- Witness for C1 at the concrete run `key = "k"`, `window = 10`,
instants `0, 3, 7`: the hypothesis holds and the final count is 3. -/
theorem mem_increment_sequential_counts_witness :
    (∀ t ∈ ([3, 7] : List Int), t - 0 ≤ 10) ∧
    memGet (runIncrements [] "k" 10 ([0, 3, 7] : List Int)).1 "k" = (3, 0, none) := by
  refine ⟨by decide, ?_⟩
  have h := (mem_increment_sequential_counts "k" 10 0 [3, 7] (by decide)).2.2
  norm_num at h
  exact h

/-- Iterate `MemoryStore.Decrement` `n` times on the same key. -/
def iterMemDecrement (m : MemoryStore) (key : String) : Nat → MemoryStore
  | 0 => m
  | n + 1 => iterMemDecrement (memDecrement m key).1 key n


theorem iterMemDecrement_count (key : String) :
    ∀ (n : Nat) (m : MemoryStore) (e : MemoryEntry),
      getEntry m key = some e → 0 ≤ e.count →
      getEntry (iterMemDecrement m key n) key =
        some ⟨max (e.count - n) 0, e.windowStart⟩ := by
  intro n
  induction n with
  | zero =>
      intro m e hm hc
      obtain ⟨ec, ews⟩ := e
      simp only [MemoryEntry.count] at hc
      simp [iterMemDecrement, hm, MemoryEntry.mk.injEq]
      omega
  | succ k ih =>
      intro m e hm hc
      obtain ⟨ec, ews⟩ := e
      simp only [MemoryEntry.count] at hc
      by_cases hpos : ec > 0
      · have hstep : memDecrement m key = (setEntry m key ⟨ec - 1, ews⟩, none) := by
          simp [memDecrement, hm, hpos]
        have hnext := getEntry_setEntry_self m key ⟨ec - 1, ews⟩
        have h2 := ih (setEntry m key ⟨ec - 1, ews⟩) ⟨ec - 1, ews⟩ hnext
          (by simp only [MemoryEntry.count]; omega)
        simp only [iterMemDecrement, hstep]
        rw [h2]
        simp only [Option.some.injEq, MemoryEntry.mk.injEq]
        refine ⟨?_, trivial⟩
        push_cast
        omega
      · have hstep : memDecrement m key = (m, none) := by
          simp [memDecrement, hm, hpos]
        have h2 := ih m ⟨ec, ews⟩ hm hc
        simp only [iterMemDecrement, hstep]
        rw [h2]
        simp only [Option.some.injEq, MemoryEntry.mk.injEq]
        refine ⟨?_, trivial⟩
        push_cast
        omega

/-- C2. Window reset on expiry: when a key's entry is older than the
window (`now - windowStart > window`, strictly), the next `Increment`
returns count 1 with a fresh full-window ttl and stores
`{count := 1, windowStart := now}`, whatever the pre-expiry count was —
for `MemoryStore.Increment` and for the Redis `incrementScript` alike. -/
theorem increment_reset_after_expiry (m : MemoryStore) (key : String)
    (now window : Int) (e : MemoryEntry) (c ws : Int)
    (hm : getEntry m key = some e) (hexp : now - e.windowStart > window)
    (hrexp : now - ws > window) :
    memIncrement m now key window = (setEntry m key ⟨1, now⟩, 1, window, none) ∧
    redisIncrementScript (some ⟨c, ws⟩) window now = (some ⟨1, now⟩, 1, window) := by
  constructor
  · simp [memIncrement, hm]
    omega
  · have h1 : window < now - ws := hrexp
    simp [redisIncrementScript, h1]

/-- Witness for C2 at `now = 100`, `window = 10`, an entry that started at
time 0 with count 7: both stores reset to count 1. -/
theorem increment_reset_after_expiry_witness :
    getEntry [("k", (⟨7, 0⟩ : MemoryEntry))] "k" = some ⟨7, 0⟩ ∧
    memIncrement [("k", ⟨7, 0⟩)] 100 "k" 10 =
      (setEntry [("k", ⟨7, 0⟩)] "k" ⟨1, 100⟩, 1, 10, none) ∧
    redisIncrementScript (some ⟨7, 0⟩) 10 100 = (some ⟨1, 100⟩, 1, 10) := by
  refine ⟨by decide, ?_, ?_⟩
  · exact (increment_reset_after_expiry [("k", ⟨7, 0⟩)] "k" 100 10 ⟨7, 0⟩ 7 0
      (by decide) (by decide) (by decide)).1
  · exact (increment_reset_after_expiry [("k", ⟨7, 0⟩)] "k" 100 10 ⟨7, 0⟩ 7 0
      (by decide) (by decide) (by decide)).2

/-- C5. Decrement floors at zero and never creates entries: `n` repeated
`MemoryStore.Decrement` calls on an entry with count `c ≥ 0` leave it at
`max (c - n) 0` (never negative; a decrement of 0 stays 0) with the
window start untouched; a decrement of a missing key returns `nil` and
leaves the store unchanged (no entry created). The Redis
`decrementScript` is the same: a count `c ≥ 0` becomes `max (c - 1) 0`
and a missing key stays missing with count 0 returned. -/
theorem decrement_floor_at_zero (m : MemoryStore) (key : String)
    (e : MemoryEntry) (n : Nat) (re : RedisEntry)
    (hm : getEntry m key = some e) (hc : 0 ≤ e.count) (hrc : 0 ≤ re.count) :
    getEntry (iterMemDecrement m key n) key =
      some ⟨max (e.count - n) 0, e.windowStart⟩ ∧
    (∀ m2 : MemoryStore, getEntry m2 key = none → memDecrement m2 key = (m2, none)) ∧
    redisDecrementScript (some re) =
      (some ⟨max (re.count - 1) 0, re.windowStart⟩, max (re.count - 1) 0) ∧
    redisDecrementScript none = (none, 0) := by
  refine ⟨iterMemDecrement_count key n m e hm hc, ?_, ?_, rfl⟩
  · intro m2 h2
    simp [memDecrement, h2]
  · obtain ⟨rc, rws⟩ := re
    simp only [RedisEntry.count] at hrc
    by_cases hpos : rc > 0
    · simp only [redisDecrementScript, if_pos hpos, Prod.mk.injEq,
        Option.some.injEq, RedisEntry.mk.injEq]
      refine ⟨⟨?_, trivial⟩, ?_⟩ <;> omega
    · simp only [redisDecrementScript, if_neg hpos, Prod.mk.injEq,
        Option.some.injEq, RedisEntry.mk.injEq]
      refine ⟨⟨?_, trivial⟩, ?_⟩ <;> omega

/-- Witness for C5: three decrements of a count-2 entry floor at 0, and
the Redis script keeps a count-0 entry at 0. -/
theorem decrement_floor_at_zero_witness :
    getEntry [("k", (⟨2, 5⟩ : MemoryEntry))] "k" = some ⟨2, 5⟩ ∧
    getEntry (iterMemDecrement [("k", ⟨2, 5⟩)] "k" 3) "k" = some ⟨0, 5⟩ ∧
    redisDecrementScript (some ⟨0, 5⟩) = (some ⟨0, 5⟩, 0) := by
  refine ⟨by decide, ?_, ?_⟩
  · have h := (decrement_floor_at_zero [("k", ⟨2, 5⟩)] "k" ⟨2, 5⟩ 3 ⟨0, 5⟩
      (by decide) (by decide) (by decide)).1
    simpa using h
  · have h := (decrement_floor_at_zero [("k", ⟨2, 5⟩)] "k" ⟨2, 5⟩ 3 ⟨0, 5⟩
      (by decide) (by decide) (by decide)).2.2.1
    simpa using h

/-- C6. Absence is not failure: `Get` on a key with no entry — a fresh
store, a key never operated on, or a key just `Reset` — returns
`(0, 0, nil)` for the `MemoryStore`; the `RedisStore` likewise returns
`(0, 0, nil)` when the client reports the key missing (which `Reset`
guarantees, since it deletes the key). -/
theorem get_absent_returns_zero (m : MemoryStore) (key : String) (w : Nat)
    (habs : getEntry m key = none) :
    memGet m key = (0, 0, none) ∧
    memGet ([] : MemoryStore) key = (0, 0, none) ∧
    memGet (memReset m key).1 key = (0, 0, none) ∧
    (memReset m key).2 = none ∧
    redisGet w none = (0, 0, none) := by
  refine ⟨?_, rfl, ?_, rfl, rfl⟩
  · simp [memGet, habs]
  · simp [memGet, memReset, getEntry_delEntry_self]

/-- Witness for C6 on a store holding an unrelated key. -/
theorem get_absent_returns_zero_witness :
    getEntry [("other", (⟨4, 0⟩ : MemoryEntry))] "k" = none ∧
    memGet [("other", ⟨4, 0⟩)] "k" = (0, 0, none) ∧
    redisGet 64 none = (0, 0, none) := by
  refine ⟨by decide, ?_, ?_⟩
  · exact (get_absent_returns_zero [("other", ⟨4, 0⟩)] "k" 64 (by decide)).1
  · exact (get_absent_returns_zero [("other", ⟨4, 0⟩)] "k" 64 (by decide)).2.2.2.2

/-- C7 counterexample. The claim "the ttl reported by a store operation
(Increment as well as Get) equals max(0, window - (now - windowStart))"
fails for `MemoryStore.Get`: for an entry with `windowStart = 0`, count 1,
at `now = 0` with `window = 100` the formula gives 100, but the source's
`Get` returns a ttl of 0 for every existing entry. -/
theorem get_ttl_formula_cex :
    ¬ ((memGet [("k", (⟨1, 0⟩ : MemoryEntry))] "k").2.1 =
       max 0 (100 - ((0 : Int) - 0))) := by
  decide

/-- C7 amended. For an existing entry, the ttl reported by
`MemoryStore.Increment` equals `max(0, window - (now - windowStart))`
taken at the entry's `windowStart` as it stands when the call returns
(after a reset it is `now`); `MemoryStore.Get`, by contrast, always
reports a ttl of 0 for an existing entry. -/
theorem increment_ttl_formula (m : MemoryStore) (key : String)
    (now window : Int) (e : MemoryEntry)
    (hw : 0 ≤ window) (hm : getEntry m key = some e) :
    (memGet m key).2.1 = 0 ∧
    ∃ e2, getEntry (memIncrement m now key window).1 key = some e2 ∧
      (memIncrement m now key window).2.2.1 =
        max 0 (window - (now - e2.windowStart)) := by
  constructor
  · simp [memGet, hm]
  · by_cases hexp : now - e.windowStart > window
    · refine ⟨⟨1, now⟩, ?_, ?_⟩
      · have : memIncrement m now key window =
            (setEntry m key ⟨1, now⟩, 1, window, none) := by
          simp [memIncrement, hm]
          omega
        rw [this]
        exact getEntry_setEntry_self m key ⟨1, now⟩
      · have : memIncrement m now key window =
            (setEntry m key ⟨1, now⟩, 1, window, none) := by
          simp [memIncrement, hm]
          omega
        rw [this]
        simp only [MemoryEntry.windowStart]
        omega
    · refine ⟨⟨e.count + 1, e.windowStart⟩, ?_, ?_⟩
      · have : memIncrement m now key window =
            (setEntry m key ⟨e.count + 1, e.windowStart⟩, e.count + 1,
              window - (now - e.windowStart), none) := by
          simp [memIncrement, hm]
          omega
        rw [this]
        exact getEntry_setEntry_self m key ⟨e.count + 1, e.windowStart⟩
      · have : memIncrement m now key window =
            (setEntry m key ⟨e.count + 1, e.windowStart⟩, e.count + 1,
              window - (now - e.windowStart), none) := by
          simp [memIncrement, hm]
          omega
        rw [this]
        simp only [MemoryEntry.windowStart]
        omega

/-- Witness for the amended C7 at a non-expired entry: `now = 5`,
`window = 100`, entry started at 0. -/
theorem increment_ttl_formula_witness :
    (0 : Int) ≤ 100 ∧
    getEntry [("k", (⟨1, 0⟩ : MemoryEntry))] "k" = some ⟨1, 0⟩ ∧
    ((memGet [("k", (⟨1, 0⟩ : MemoryEntry))] "k").2.1 = 0 ∧
      ∃ e2, getEntry (memIncrement [("k", ⟨1, 0⟩)] 5 "k" 100).1 "k" = some e2 ∧
        (memIncrement [("k", ⟨1, 0⟩)] 5 "k" 100).2.2.1 =
          max 0 (100 - (5 - e2.windowStart))) :=
  ⟨by decide, by decide,
    increment_ttl_formula [("k", ⟨1, 0⟩)] "k" 5 100 ⟨1, 0⟩ (by decide) (by decide)⟩

theorem admissionFlow_ret (cfg : Config) (now : Int) (getRes incRes : StoreResp)
    (events : List WriterEvent) :
    (admissionFlow cfg now getRes incRes events).ret = MWReturn.fromNext ∨
    (admissionFlow cfg now getRes incRes events).ret = MWReturn.fromHandler := by
  unfold admissionFlow
  by_cases h : getRes.count ≥ cfg.max
  · simp [h]
  · cases hi : incRes.err with
    | none => simp [h, hi]
    | some msg => simp [h, hi]

/-- C3. Denial path: on a request whose `Get` succeeds with a count at or
above the limit, the middleware sets exactly the `{prefix}Limit`,
`{prefix}Remaining = 0`, `{prefix}Reset` and `Retry-After` headers,
returns the admission handler's result, and never invokes the downstream
`next` handler (nor charges or decrements the counter). -/
theorem ratelimit_denies_at_limit (cfg : Config) (now : Int)
    (getRes incRes : StoreResp) (events : List WriterEvent)
    (herr : getRes.err = none) (hcount : getRes.count ≥ cfg.max) :
    rateLimitHandle cfg now getRes incRes events =
      { headers := [ (cfg.headerPfx ++ "Limit", toString cfg.max),
                     (cfg.headerPfx ++ "Remaining", "0"),
                     (cfg.headerPfx ++ "Reset", toString (goUnix (now + getRes.ttl))),
                     ("Retry-After", toString (durSecondsTrunc getRes.ttl)) ],
        handlerInvoked := true, nextInvoked := false, charged := false,
        decrements := 0, ret := MWReturn.fromHandler } := by
  simp [rateLimitHandle, herr, admissionFlow, hcount, denialHeaders]

/-- Witness for C3: limit 2, current count 2, ttl 5s. -/
theorem ratelimit_denies_at_limit_witness :
    (⟨2, 5000000000, none⟩ : StoreResp).err = none ∧
    (⟨2, 5000000000, none⟩ : StoreResp).count ≥
      (⟨2, false, false, "X-RateLimit-"⟩ : Config).max ∧
    rateLimitHandle ⟨2, false, false, "X-RateLimit-"⟩ 0 ⟨2, 5000000000, none⟩
        ⟨0, 0, none⟩ [] =
      { headers := [ ("X-RateLimit-" ++ "Limit", toString (2 : Int)),
                     ("X-RateLimit-" ++ "Remaining", "0"),
                     ("X-RateLimit-" ++ "Reset", toString (goUnix ((0 : Int) + 5000000000))),
                     ("Retry-After", toString (durSecondsTrunc 5000000000)) ],
        handlerInvoked := true, nextInvoked := false, charged := false,
        decrements := 0, ret := MWReturn.fromHandler } :=
  ⟨rfl, by decide,
    ratelimit_denies_at_limit ⟨2, false, false, "X-RateLimit-"⟩ 0
      ⟨2, 5000000000, none⟩ ⟨0, 0, none⟩ [] rfl (by decide)⟩

/-- C4 counterexample. The claim says every non-nil store error on `Get`
makes the middleware invoke the downstream handler; but the source
special-cases the error message "key not found" (it is treated as a
successful read), so with such an error and a count already at the limit
the request is denied and `next` is never invoked. -/
theorem ratelimit_fail_open_cex :
    (some "key not found" : Option String) ≠ none ∧
    (rateLimitHandle ⟨1, false, false, "X-RateLimit-"⟩ 0
      ⟨1, 0, some "key not found"⟩ ⟨0, 0, none⟩ []).nextInvoked = false := by
  constructor
  · simp
  · rfl

/-- C4 amended. Fail-open holds for every `Get` error except the one with
message "key not found" (which the source treats as a successful read and
continues the normal admission flow on), and for every `Increment` error:
in those cases `next` runs, nothing is charged, nothing is decremented
and no headers are set. The middleware's return value always comes from
`next` or from the admission handler, never from the store error. -/
theorem ratelimit_fail_open (cfg : Config) (now : Int)
    (getRes incRes : StoreResp) (events : List WriterEvent) :
    (∀ msg, getRes.err = some msg → msg ≠ "key not found" →
      rateLimitHandle cfg now getRes incRes events =
        { headers := [], handlerInvoked := false, nextInvoked := true,
          charged := false, decrements := 0, ret := MWReturn.fromNext }) ∧
    ((getRes.err = none ∨ getRes.err = some "key not found") →
      getRes.count < cfg.max → incRes.err.isSome →
      rateLimitHandle cfg now getRes incRes events =
        { headers := [], handlerInvoked := false, nextInvoked := true,
          charged := false, decrements := 0, ret := MWReturn.fromNext }) ∧
    ((rateLimitHandle cfg now getRes incRes events).ret = MWReturn.fromNext ∨
     (rateLimitHandle cfg now getRes incRes events).ret = MWReturn.fromHandler) := by
  refine ⟨?_, ?_, ?_⟩
  · intro msg hmsg hne
    simp [rateLimitHandle, hmsg, hne]
  · intro hget hcount hinc
    obtain ⟨msg2, hmsg2⟩ := Option.isSome_iff_exists.mp hinc
    have hred : rateLimitHandle cfg now getRes incRes events =
        admissionFlow cfg now getRes incRes events := by
      rcases hget with h | h
      · simp [rateLimitHandle, h]
      · simp [rateLimitHandle, h]
    rw [hred]
    simp [admissionFlow, not_le.mpr hcount, hmsg2]
  · cases hE : getRes.err with
    | none =>
        simpa [rateLimitHandle, hE] using admissionFlow_ret cfg now getRes incRes events
    | some msg =>
        by_cases hne : msg = "key not found"
        · simpa [rateLimitHandle, hE, hne] using admissionFlow_ret cfg now getRes incRes events
        · simp [rateLimitHandle, hE, hne]

/-- Witness for the amended C4: a network-style `Get` error fails open. -/
theorem ratelimit_fail_open_witness :
    (⟨0, 0, some "connection refused"⟩ : StoreResp).err = some "connection refused" ∧
    "connection refused" ≠ "key not found" ∧
    rateLimitHandle ⟨5, false, false, "X-RateLimit-"⟩ 0
        ⟨0, 0, some "connection refused"⟩ ⟨0, 0, none⟩ [] =
      { headers := [], handlerInvoked := false, nextInvoked := true,
        charged := false, decrements := 0, ret := MWReturn.fromNext } :=
  ⟨rfl, by simp,
    (ratelimit_fail_open ⟨5, false, false, "X-RateLimit-"⟩ 0
      ⟨0, 0, some "connection refused"⟩ ⟨0, 0, none⟩ []).1
      "connection refused" rfl (by simp)⟩

theorem rateLimitHandle_decrements (cfg : Config) (now : Int)
    (getRes incRes : StoreResp) (events : List WriterEvent)
    (hgerr : getRes.err = none) (hcount : getRes.count < cfg.max)
    (hierr : incRes.err = none) :
    (rateLimitHandle cfg now getRes incRes events).decrements =
      (if cfg.skipFailedRequests || cfg.skipSuccessfulRequests then
        if (cfg.skipFailedRequests = true ∧ effStatus events ≥ 400) ∨
           (cfg.skipSuccessfulRequests = true ∧
             200 ≤ effStatus events ∧ effStatus events < 400) then 1 else 0
      else 0) := by
  simp [rateLimitHandle, hgerr, admissionFlow, not_le.mpr hcount, hierr]

/-- C9. Post-hoc reconciliation: for a request admitted through the
metered path (successful `Get` below the limit, successful `Increment`),
the middleware decrements the key exactly once when `SkipFailedRequests`
is set and the observed final status is at least 400, or when
`SkipSuccessfulRequests` is set and the observed final status is in
`[200, 400)`; when neither configured condition matches, it never calls
`Decrement`. -/
theorem skip_reconciliation_decrements (cfg : Config) (now : Int)
    (getRes incRes : StoreResp) (events : List WriterEvent)
    (hgerr : getRes.err = none) (hcount : getRes.count < cfg.max)
    (hierr : incRes.err = none) :
    (((cfg.skipFailedRequests = true ∧ effStatus events ≥ 400) ∨
      (cfg.skipSuccessfulRequests = true ∧
        200 ≤ effStatus events ∧ effStatus events < 400)) →
      (rateLimitHandle cfg now getRes incRes events).decrements = 1) ∧
    (¬((cfg.skipFailedRequests = true ∧ effStatus events ≥ 400) ∨
       (cfg.skipSuccessfulRequests = true ∧
         200 ≤ effStatus events ∧ effStatus events < 400)) →
      (rateLimitHandle cfg now getRes incRes events).decrements = 0) := by
  have hred := rateLimitHandle_decrements cfg now getRes incRes events hgerr hcount hierr
  constructor
  · intro hcond
    have hflag : (cfg.skipFailedRequests || cfg.skipSuccessfulRequests) = true := by
      rcases hcond with ⟨hf, _⟩ | ⟨hs, _⟩
      · simp [hf]
      · simp [hs]
    rw [hred, if_pos hflag, if_pos hcond]
  · intro hncond
    rw [hred]
    by_cases hflag : (cfg.skipFailedRequests || cfg.skipSuccessfulRequests) = true
    · rw [if_pos hflag, if_neg hncond]
    · rw [if_neg hflag]

/-- Witness for C9: `SkipSuccessfulRequests` with a 200 response gives
exactly one decrement. -/
theorem skip_reconciliation_decrements_witness :
    (⟨0, 0, none⟩ : StoreResp).err = none ∧
    (⟨0, 0, none⟩ : StoreResp).count < (⟨5, false, true, "X-RateLimit-"⟩ : Config).max ∧
    (rateLimitHandle ⟨5, false, true, "X-RateLimit-"⟩ 0 ⟨0, 0, none⟩
      ⟨1, 1000000000, none⟩ [WriterEvent.writeHeader 200]).decrements = 1 := by
  refine ⟨rfl, by decide, ?_⟩
  exact (skip_reconciliation_decrements ⟨5, false, true, "X-RateLimit-"⟩ 0
    ⟨0, 0, none⟩ ⟨1, 1000000000, none⟩ [WriterEvent.writeHeader 200]
    rfl (by decide) rfl).1 (Or.inr ⟨rfl, by decide, by decide⟩)

theorem swFinalStatus_body_only :
    ∀ (events : List WriterEvent) (st : Int),
      (∀ e ∈ events, ∃ n, e = WriterEvent.write n) →
      (st = 0 ∨ st = 200) →
      (swFinalStatus st events = 0 ∨ swFinalStatus st events = 200) := by
  intro events
  induction events with
  | nil =>
      intro st _ hst
      simpa [swFinalStatus] using hst
  | cons e rest ih =>
      intro st hall hst
      obtain ⟨n, rfl⟩ := hall e (List.mem_cons_self e rest)
      have hrest : ∀ e2 ∈ rest, ∃ n2, e2 = WriterEvent.write n2 :=
        fun e2 h2 => hall e2 (List.mem_cons_of_mem _ h2)
      simp only [swFinalStatus]
      apply ih _ hrest
      rcases hst with h | h
      · simp [h]
      · simp [h]

/-- C10. A downstream handler that never calls `WriteHeader` (whether or
not it writes a body) is observed with status 200: the reconciliation
step classifies the request as successful, so with
`SkipSuccessfulRequests` set the counter is decremented once. -/
theorem unwritten_status_treated_ok (cfg : Config) (now : Int)
    (getRes incRes : StoreResp) (events : List WriterEvent)
    (hgerr : getRes.err = none) (hcount : getRes.count < cfg.max)
    (hierr : incRes.err = none)
    (hbody : ∀ e ∈ events, ∃ n, e = WriterEvent.write n) :
    effStatus events = 200 ∧
    (cfg.skipSuccessfulRequests = true →
      (rateLimitHandle cfg now getRes incRes events).decrements = 1) := by
  have heff : effStatus events = 200 := by
    have h := swFinalStatus_body_only events 0 hbody (Or.inl rfl)
    rcases h with h | h <;> simp [effStatus, h]
  refine ⟨heff, ?_⟩
  intro hs
  have hred := rateLimitHandle_decrements cfg now getRes incRes events hgerr hcount hierr
  have hflag : (cfg.skipFailedRequests || cfg.skipSuccessfulRequests) = true := by
    simp [hs]
  have hcond : (cfg.skipFailedRequests = true ∧ effStatus events ≥ 400) ∨
      (cfg.skipSuccessfulRequests = true ∧
        200 ≤ effStatus events ∧ effStatus events < 400) := by
    refine Or.inr ⟨hs, ?_, ?_⟩ <;> simp [heff]
  rw [hred, if_pos hflag, if_pos hcond]

/-- Witness for C10: a handler that only writes a body is treated as a
200 and, with `SkipSuccessfulRequests`, decremented once. -/
theorem unwritten_status_treated_ok_witness :
    (∀ e ∈ [WriterEvent.write 12], ∃ n, e = WriterEvent.write n) ∧
    (effStatus [WriterEvent.write 12] = 200 ∧
      ((⟨5, false, true, "X-RateLimit-"⟩ : Config).skipSuccessfulRequests = true →
        (rateLimitHandle ⟨5, false, true, "X-RateLimit-"⟩ 0 ⟨0, 0, none⟩
          ⟨1, 1000000000, none⟩ [WriterEvent.write 12]).decrements = 1)) :=
  ⟨fun e he => ⟨12, by simpa using he⟩,
    unwritten_status_treated_ok ⟨5, false, true, "X-RateLimit-"⟩ 0 ⟨0, 0, none⟩
      ⟨1, 1000000000, none⟩ [WriterEvent.write 12] rfl (by decide) rfl
      (fun e he => ⟨12, by simpa using he⟩)⟩

/-- C8. `toInt` is exact or errors, never truncates: on a platform whose
`int` is 32 or 64 bits, an `int64` value inside
`[math.MinInt, math.MaxInt]` comes back exactly and one outside is a
reported error; a decimal string that parses to a value inside the range
comes back exactly, one parsing outside the range (or not parsing at all)
is a reported error; and whenever `toInt` returns `ok r`, `r` is the
exact input value (for strings, the exact parsed value) — never a
truncation. -/
theorem toInt_range_checked (w : Nat) (v : Int) (s : String)
    (_hw : w = 32 ∨ w = 64) :
    (minIntW w ≤ v → v ≤ maxIntW w → toInt w (GoVal.vint64 v) = Except.ok v) ∧
    (v > maxIntW w ∨ v < minIntW w →
      ∃ e, toInt w (GoVal.vint64 v) = Except.error e) ∧
    (∀ r, toInt w (GoVal.vint64 v) = Except.ok r → r = v) ∧
    (goParseInt64 s = Except.ok v → minIntW w ≤ v → v ≤ maxIntW w →
      toInt w (GoVal.vstr s) = Except.ok v) ∧
    (goParseInt64 s = Except.ok v → (v > maxIntW w ∨ v < minIntW w) →
      ∃ e, toInt w (GoVal.vstr s) = Except.error e) ∧
    (∀ e0, goParseInt64 s = Except.error e0 →
      ∃ e, toInt w (GoVal.vstr s) = Except.error e) ∧
    (∀ r, toInt w (GoVal.vstr s) = Except.ok r →
      goParseInt64 s = Except.ok r ∧ minIntW w ≤ r ∧ r ≤ maxIntW w) := by
  refine ⟨?_, ?_, ?_, ?_, ?_, ?_, ?_⟩
  · intro h1 h2
    have hno : ¬(v > maxIntW w ∨ v < minIntW w) := by
      push_neg
      exact ⟨h2, h1⟩
    simp [toInt, hno]
  · intro h
    exact ⟨"value overflows int on this platform", by simp [toInt, h]⟩
  · intro r hr
    by_cases hc : v > maxIntW w ∨ v < minIntW w
    · simp [toInt, hc] at hr
    · simp [toInt, hc] at hr
      omega
  · intro hp h1 h2
    have hno : ¬(v > maxIntW w ∨ v < minIntW w) := by
      push_neg
      exact ⟨h2, h1⟩
    simp [toInt, hp, hno]
  · intro hp h
    exact ⟨"value overflows int on this platform", by simp [toInt, hp, h]⟩
  · intro e0 he
    exact ⟨e0, by simp [toInt, he]⟩
  · intro r hr
    cases hps : goParseInt64 s with
    | error e0 => simp [toInt, hps] at hr
    | ok i =>
        by_cases hc : i > maxIntW w ∨ i < minIntW w
        · simp [toInt, hps, hc] at hr
        · simp [toInt, hps, hc] at hr
          push_neg at hc
          refine ⟨?_, hr ▸ hc.2, hr ▸ hc.1⟩
          exact congrArg Except.ok hr

/-- Witness for C8: on the 64-bit platform the int64 value 5 is exact;
on the 32-bit platform the decimal string "2147483648" (one past
`math.MaxInt32`) is a reported error. -/
theorem toInt_range_checked_witness :
    ((64 : Nat) = 32 ∨ (64 : Nat) = 64) ∧
    toInt 64 (GoVal.vint64 5) = Except.ok 5 ∧
    (∃ e, toInt 32 (GoVal.vstr "2147483648") = Except.error e) := by
  refine ⟨Or.inr rfl, ?_, ?_⟩
  · exact (toInt_range_checked 64 5 "5" (Or.inr rfl)).1 (by decide) (by decide)
  · exact (toInt_range_checked 32 2147483648 "2147483648" (Or.inl rfl)).2.2.2.2.1
      rfl (Or.inl (by decide))
